import Mathlib

/-!
Shallow embedding of the pdfToDocx repository (src/ultra_converter.py with the
shared helpers of src/advanced_converter.py).

Python strings are modelled as `List Char`; character predicates (`str.isupper`,
`str.strip`, regex character classes `\s`, `\d`, `\w`) are modelled over ASCII,
which is the alphabet the converter's own literals use.  Page coordinates and
font sizes are modelled as exact rationals (`Rat`); `round(y, 2)` is modelled as
exact rational rounding (binary floating point is abstracted away, which does
not affect any ordering property).  Regex matching is modelled with the
existence semantics of backtracking search.
-/

/-- ASCII whitespace as recognised by Python's `str.strip` and the regex
class `\s` (space, tab, newline, carriage return, vertical tab, form feed). -/
def pyIsSpaceChar (c : Char) : Bool :=
  c = ' ' || c = '\t' || c = '\n' || c = '\r' || c.toNat = 11 || c.toNat = 12

/-- Regex word character (`\w`): alphanumeric or underscore (ASCII). -/
def isWordChar (c : Char) : Bool :=
  c.isAlphanum || c = '_'

/-- Python `str.strip()`: remove leading and trailing whitespace. -/
def pyStrip (l : List Char) : List Char :=
  ((l.dropWhile pyIsSpaceChar).reverse.dropWhile pyIsSpaceChar).reverse

/-- Python `str.isupper()`: at least one cased character and no lowercase
cased character (ASCII model: cased characters are letters). -/
def pyIsUpper (l : List Char) : Bool :=
  l.any (fun c => c.isAlpha) && l.all (fun c => !c.isLower)

/-- The bullet glyphs of the regex class `[•◦\-*▪▫]` used throughout the
repository (ultra_converter.py line 162, advanced_converter.py line 149). -/
def bulletGlyphs : List Char := ['•', '◦', '-', '*', '▪', '▫']

/-- Membership in the regex character class `[\s•◦\-*▪▫]`. -/
def isGlyphClass (c : Char) : Bool :=
  pyIsSpaceChar c || bulletGlyphs.contains c

/-- `re.match(r'^[\s•◦\-*▪▫]', text)`: the first character is in the class. -/
def matchGlyph (l : List Char) : Bool :=
  match l with
  | [] => false
  | c :: _ => isGlyphClass c

/-- `re.match(r'^\s*\d+\.', text)`: optional leading whitespace, one or more
digits, then a literal dot. -/
def matchNumMarker (l : List Char) : Bool :=
  let t := l.dropWhile pyIsSpaceChar
  let ds := t.takeWhile Char.isDigit
  decide (ds ≠ []) && ((t.drop ds.length).head? == some '.')

/-- `re.match(r'^\s*[a-zA-Z]\.', text)` from advanced_converter.py's
`detect_bullet_point` (line 152): one letter followed by a dot. -/
def matchesAlphaMarker (l : List Char) : Bool :=
  match l.dropWhile pyIsSpaceChar with
  | c :: '.' :: _ => c.isAlpha
  | _ => false

/-- Word-boundary test (`\b`) between two optional adjacent characters:
exactly one side is a word character (ends of string count as non-word). -/
def wordBoundary (a b : Option Char) : Bool :=
  (match a with | some c => isWordChar c | none => false) !=
  (match b with | some c => isWordChar c | none => false)

/-- Consume exactly `n` digits (`\d{n}`), returning the rest. -/
def digitsTake : Nat → List Char → Option (List Char)
  | 0, l => some l
  | _ + 1, [] => none
  | n + 1, c :: r => if c.isDigit then digitsTake n r else none

/-- Optional separator `[-.]?`, with the existence semantics of
backtracking: try consuming one separator, or consume nothing. -/
def optSep (k : List Char → Bool) (l : List Char) : Bool :=
  (match l with
   | c :: r => (c = '-' || c = '.') && k r
   | [] => false) || k l

/-- Match `\d{3}[-.]?\d{3}[-.]?\d{4}\b` at the start of `l`
(the phone pattern of ultra_converter.py line 166, without the
leading boundary, which is checked by the caller). -/
def phoneAt (l : List Char) : Bool :=
  match digitsTake 3 l with
  | none => false
  | some r1 =>
    optSep (fun r2 =>
      match digitsTake 3 r2 with
      | none => false
      | some r3 =>
        optSep (fun r4 =>
          match digitsTake 4 r4 with
          | none => false
          | some r5 => wordBoundary (some '0') r5.head?) r3) r1

/-- `re.search(r'\b\d{3}[-.]?\d{3}[-.]?\d{4}\b', text)`: try every start
position, with the leading `\b` between the previous character and the
first matched digit. -/
def phoneSearchAux (prev : Option Char) : List Char → Bool
  | [] => false
  | c :: r => (wordBoundary prev (some c) && phoneAt (c :: r)) ||
      phoneSearchAux (some c) r

/-- Phone-number search over a whole string. -/
def phoneSearch (l : List Char) : Bool :=
  phoneSearchAux none l

/-- The local-part class `[A-Za-z0-9._%+-]` of the email pattern. -/
def localChar (c : Char) : Bool :=
  c.isAlphanum || c = '.' || c = '_' || c = '%' || c = '+' || c = '-'

/-- The domain class `[A-Za-z0-9.-]` of the email pattern. -/
def domChar (c : Char) : Bool :=
  c.isAlphanum || c = '.' || c = '-'

/-- The class `[A-Z|a-z]` of the email pattern (the literal `|` is part of
the class in the source). -/
def tldChar (c : Char) : Bool :=
  ('A' ≤ c && c ≤ 'Z') || ('a' ≤ c && c ≤ 'z') || c = '|'

/-- Match `[A-Za-z0-9.-]+\.[A-Z|a-z]{2,}\b` at the start of `r`, with the
existence semantics of backtracking (any split into a non-empty domain run,
a dot, and at least two trailing-class characters ending at a boundary). -/
def emailTailOK (r : List Char) : Bool :=
  (List.range (r.length + 1)).any (fun d =>
    decide (0 < d) && (r.take d).all domChar &&
    (match r.drop d with
     | '.' :: t =>
       (List.range (t.length + 1)).any (fun k =>
         decide (2 ≤ k) && decide (k ≤ t.length) && (t.take k).all tldChar &&
         wordBoundary ((t.take k).getLast?) ((t.drop k).head?))
     | _ => false))

/-- Match the email pattern of ultra_converter.py line 168 at the start of
`l`, `prev` being the character before the match (for the leading `\b`).
The local part is forced to be the maximal run of local-class characters,
since `@` is not in the class. -/
def emailAt (prev : Option Char) (l : List Char) : Bool :=
  let ls := l.takeWhile localChar
  decide (ls ≠ []) &&
  (match l.drop ls.length with
   | '@' :: r => wordBoundary prev ls.head? && emailTailOK r
   | _ => false)

/-- `re.search` of the email pattern: try every start position. -/
def emailSearchAux (prev : Option Char) : List Char → Bool
  | [] => false
  | c :: r => emailAt prev (c :: r) || emailSearchAux (some c) r

/-- Email search over a whole string. -/
def emailSearch (l : List Char) : Bool :=
  emailSearchAux none l

/-- The resume-section keywords of ultra_converter.py line 172. -/
def sectionKeywords : List (List Char) :=
  [String.toList "experience", String.toList "education", String.toList "skills",
   String.toList "summary", String.toList "objective", String.toList "projects",
   String.toList "certifications"]

/-- Helper for substring search: does `pat` start `l`? -/
def leadsWith : List Char → List Char → Bool
  | [], _ => true
  | _ :: _, [] => false
  | a :: pas, b :: bs => a = b && leadsWith pas bs

/-- Python's `pat in s` substring containment. -/
def isSubstrOf (pat : List Char) : List Char → Bool
  | [] => leadsWith pat []
  | c :: r => leadsWith pat (c :: r) || isSubstrOf pat r

/-- `any(keyword in text.lower() for keyword in section_keywords)`
(ultra_converter.py line 173). -/
def hasSectionKeyword (l : List Char) : Bool :=
  sectionKeywords.any (fun kw => isSubstrOf kw (l.map Char.toLower))

/-- The fixed enumeration of text-block kinds produced by the classifier
and consumed by the block emitter. -/
inductive BlockType where
  | heading1
  | heading2
  | section_header
  | bullet
  | contact
  | indented
  | paragraph
  | empty
deriving DecidableEq, Repr

/-- `classify_text_type(text, font_size, indent_level)` of
ultra_converter.py lines 150-180, rule for rule in source order. -/
def classify (text : List Char) (font_size indent_level : ℚ) : BlockType :=
  if font_size > 16 then .heading1
  else if font_size > 14 then .heading2
  else if pyIsUpper text = true ∧ text.length < 50 then .heading2
  else if matchGlyph text = true ∨ matchNumMarker text = true then .bullet
  else if phoneSearch text = true then .contact
  else if emailSearch text = true then .contact
  else if hasSectionKeyword text = true ∧ text.length < 30 then .section_header
  else if indent_level > 50 then .indented
  else .paragraph

/-- A positioned character as yielded by the PDF source collaborator:
`char['text']`, `char['x0']`, `char['y0']` are always present, while
`char.get('size', 12)` and `char.get('fontname', 'default')` may be
missing (ultra_converter.py lines 105-118). -/
structure PChar where
  text : List Char
  x0 : ℚ
  y0 : ℚ
  size : Option ℚ
  fontname : Option (List Char)
deriving DecidableEq, Repr

/-- Replace a character's possibly-missing font size by the default the
converter substitutes for it (`char.get('size', 12)`,
ultra_converter.py line 116). -/
def fillSize (c : PChar) : PChar :=
  { c with size := some (c.size.getD 12) }

/-- `round(char['y0'], 2)` modelled as exact rational rounding to two
decimal places. -/
def quantY (q : ℚ) : ℚ :=
  (round (q * 100) : ℤ) / 100

/-- The distinct quantization keys of a character set, sorted in
descending order: this is `sorted(lines.items(), key=lambda x: x[0],
reverse=True)` of ultra_converter.py line 122 restricted to the keys. -/
def sortedKeys (chars : List PChar) : List ℚ :=
  List.insertionSort (· ≥ ·) ((chars.map (fun c => quantY c.y0)).dedup)

/-- The `lines` dictionary of ultra_converter.py lines 103-122 after
sorting: each descending key paired with the characters bucketed under it
(bucket contents in arrival order, as dict insertion order preserves). -/
def quantGroups (chars : List PChar) : List (ℚ × List PChar) :=
  (sortedKeys chars).map
    (fun k => (k, chars.filter (fun c => decide (quantY c.y0 = k))))

/-- `sorted(line_data['chars'], key=lambda c: c['x0'])` of
ultra_converter.py line 125. -/
def lineCharsSorted (g : ℚ × List PChar) : List PChar :=
  List.insertionSort (fun a b => a.x0 ≤ b.x0) g.2

/-- A classified text block (the dictionaries built at
ultra_converter.py lines 129 and 140-146; the `empty` variant carries
defaulted formatting fields, which the emitter never reads). -/
structure Block where
  type : BlockType
  text : List Char
  font_size : ℚ
  font : List Char
  indent : ℚ
deriving DecidableEq, Repr

/-- `max(set(fonts), key=fonts.count)`: a most frequent element.  Python's
tie-break (set iteration order) is unspecified; the model takes the first
maximal element in first-occurrence order. -/
def modeOf (l : List (List Char)) : List Char :=
  (l.dedup).foldl (fun best k => if l.count k > l.count best then k else best)
    ((l.dedup).headD [])

/-- Smallest element of a list of rationals (`min(...)`), `0` for the
empty list (guarded in the source by `if line_data['x_positions']`). -/
def minOf (l : List ℚ) : ℚ :=
  match l with
  | [] => 0
  | h :: t => t.foldl min h

/-- Build the block of one line group (body of the loop at
ultra_converter.py lines 124-146).  Average font size and indent are
computed from the group's characters with `char.get('size', 12)` and
`char['x0']`; the text is the concatenation of the x-sorted characters,
stripped. -/
def lineBlock (g : ℚ × List PChar) : Block :=
  let cs := lineCharsSorted g
  let text := pyStrip (cs.flatMap (fun c => c.text))
  if text = [] then
    { type := .empty, text := [], font_size := 0, font := [], indent := 0 }
  else
    let sizes := g.2.map (fun c => c.size.getD 12)
    let avg := sizes.sum / (sizes.length : ℚ)
    let font := modeOf (g.2.map (fun c => c.fontname.getD (String.toList "default")))
    let ind := minOf (g.2.map (fun c => c.x0))
    { type := classify text avg ind, text := text, font_size := avg,
      font := font, indent := ind }

/-- `analyze_text_blocks(chars)` of ultra_converter.py lines 98-148. -/
def analyzeTextBlocks (chars : List PChar) : List Block :=
  (quantGroups chars).map lineBlock

/-- `re.sub(r'^\d+\.\s*', '', text)` (ultra_converter.py line 209): when
the text starts with one or more digits followed by a dot, remove them,
the dot, and the following whitespace run. -/
def stripNumMarker (l : List Char) : List Char :=
  let ds := l.takeWhile Char.isDigit
  let rest := l.drop ds.length
  if ds ≠ [] ∧ rest.head? = some '.' then rest.tail.dropWhile pyIsSpaceChar
  else l

/-- Detect whether `stripNumMarker` would fire: a leading digit run
followed by a dot. -/
def numDotStart (l : List Char) : Bool :=
  decide (l.takeWhile Char.isDigit ≠ [] ∧
    (l.drop (l.takeWhile Char.isDigit).length).head? = some '.')

/-- The bullet-marker stripper of ultra_converter.py lines 208-209. -/
def cleanBullet (l : List Char) : List Char :=
  pyStrip (stripNumMarker (pyStrip (l.dropWhile isGlyphClass)))

/-- Paragraph styling applied by the block emitter: plain paragraphs
optionally carry the preserved font size in points (`Pt(int(...))`),
bullets use the List Bullet style, contact lines are centered italic,
indented lines get a fixed left indent. -/
inductive ParaKind where
  | plain (fontPt : Option ℤ)
  | bullet
  | contact
  | indented
deriving DecidableEq, Repr

/-- An output node appended to the Document Sink. -/
inductive Node where
  | pageBreak
  | heading (level : Nat) (text : List Char) (underline : Bool)
  | para (text : List Char) (style : ParaKind)
  | table (cells : List (List (List Char)))
deriving DecidableEq, Repr

/-- Python `int()` on a rational: truncation toward zero. -/
def pyInt (q : ℚ) : ℤ :=
  if q ≥ 0 then q.floor else q.ceil

/-- `add_formatted_text_block(doc, block)` of ultra_converter.py lines
182-231, as the list of nodes appended to the document. -/
def addFormattedTextBlock (b : Block) : List Node :=
  match b.type with
  | .empty => [Node.para [] (.plain none)]
  | .heading1 => [Node.heading 1 b.text false]
  | .heading2 => [Node.heading 2 b.text false]
  | .section_header => [Node.heading 2 b.text true]
  | .bullet =>
      let ct := cleanBullet b.text
      if ct = [] then [] else [Node.para ct .bullet]
  | .contact => [Node.para b.text .contact]
  | .indented => [Node.para b.text .indented]
  | .paragraph =>
      [Node.para b.text
        (.plain (if b.font_size > 12 then some (pyInt b.font_size) else none))]

/-- Split a string on newline characters (`text.split('\n')`). -/
def splitNl : List Char → List (List Char)
  | [] => [[]]
  | '\n' :: r => [] :: splitNl r
  | c :: r =>
    match splitNl r with
    | [] => [[c]]
    | h :: t => (c :: h) :: t

/-- The bullet cleaning of `smart_text_parsing` (ultra_converter.py line
247): remove the leading run of `[\s•◦\-*▪▫\d.]` and strip. -/
def smartClean (l : List Char) : List Char :=
  pyStrip (l.dropWhile (fun c => isGlyphClass c || c.isDigit || c = '.'))

/-- One line of `smart_text_parsing` (ultra_converter.py lines 237-251). -/
def smartLineNodes (line : List Char) : List Node :=
  let s := pyStrip line
  if s = [] then [Node.para [] (.plain none)]
  else if pyIsUpper s = true ∧ s.length < 50 then [Node.heading 2 s false]
  else if matchGlyph s = true ∨ matchNumMarker s = true then
    (let ct := smartClean s
     if ct = [] then [] else [Node.para ct .bullet])
  else [Node.para s (.plain none)]

/-- `smart_text_parsing(doc, text)` of ultra_converter.py lines 233-251. -/
def smartTextParsing (text : List Char) : List Node :=
  (splitNl text).flatMap smartLineNodes

/-- A table grid as returned by `page.extract_tables()`: rows of optional
cell strings. -/
abbrev Grid := List (List (Option (List Char)))

/-- Python truthiness of a cell (`if cell_text:`): present and non-empty. -/
def cellTruthy (c : Option (List Char)) : Bool :=
  match c with
  | none => false
  | some s => decide (s ≠ [])

/-- `word_table.rows[i].cells[j].text = ...`: write a cell, failing (as the
library raises IndexError) when the index is outside the allocated table. -/
def writeCell (tbl : List (List (List Char))) (i j : Nat) (v : List Char) :
    Option (List (List (List Char))) :=
  if i < tbl.length ∧ j < (tbl.getD i []).length then
    some (tbl.set i ((tbl.getD i []).set j v))
  else none

/-- The inner cell loop of ultra_converter.py lines 68-71: `j` is the
enumeration index of `cells` within row `i`; only truthy cells are
written, with `str(cell_text).strip()`. -/
def fillRowAux : List (Option (List Char)) → Nat → Nat →
    List (List (List Char)) → Option (List (List (List Char)))
  | [], _, _, w => some w
  | c :: cs, i, j, w =>
    if cellTruthy c then
      match writeCell w i j (pyStrip (c.getD [])) with
      | none => none
      | some w2 => fillRowAux cs i (j + 1) w2
    else fillRowAux cs i (j + 1) w

/-- The outer row loop of ultra_converter.py lines 67-71. -/
def fillTableAux : Grid → Nat → List (List (List Char)) →
    Option (List (List (List Char)))
  | [], _, w => some w
  | row :: rest, i, w =>
    match fillRowAux row i 0 w with
    | none => none
    | some w2 => fillTableAux rest (i + 1) w2

/-- `doc.add_table(rows=len(table_data), cols=len(table_data[0]))`: a fresh
table of empty cells. -/
def mkEmptyTable (rows cols : Nat) : List (List (List Char)) :=
  List.replicate rows (List.replicate cols [])

/-- The table emission of ultra_converter.py lines 63-76: allocate
`len(grid) × len(grid[0])` cells and fill them row-major. -/
def emitTable (grid : Grid) : Option (List (List (List Char))) :=
  fillTableAux grid 0 (mkEmptyTable grid.length (grid.headD []).length)

/-- The nodes emitted for one extracted grid (ultra_converter.py lines
58-78): a table followed by a spacer paragraph, skipping grids that fail
the `if table_data and len(table_data) > 0` guard. -/
def tableNodes (g : Grid) : Option (List Node) :=
  if g = [] then some []
  else
    match emitTable g with
    | none => none
    | some w => some [Node.table w, Node.para [] (.plain none)]

/-- All table nodes of one page, in extraction order. -/
def pageTables : List Grid → Option (List Node)
  | [] => some []
  | g :: r =>
    match tableNodes g with
    | none => none
    | some ns =>
      match pageTables r with
      | none => none
      | some ms => some (ns ++ ms)

/-- One page as yielded by the source collaborator: extracted table grids,
positioned characters, and the whole-page plain text fallback. -/
structure Page where
  tables : List Grid
  chars : List PChar
  extractText : List Char
deriving DecidableEq, Repr

/-- The classified text-block nodes of one page (ultra_converter.py lines
81-93): character analysis when characters exist, otherwise the
plain-text fallback. -/
def pageBody (p : Page) : List Node :=
  if p.chars ≠ [] then (analyzeTextBlocks p.chars).flatMap addFormattedTextBlock
  else if p.extractText ≠ [] then smartTextParsing p.extractText
  else []

/-- All nodes of one page: tables first, then text blocks. -/
def pageNodes (p : Page) : Option (List Node) :=
  match pageTables p.tables with
  | none => none
  | some ts => some (ts ++ pageBody p)

/-- The page loop of `ultra_preserve_formatting` (ultra_converter.py lines
47-93): `n` is the 1-based page number, `acc` the document so far; a page
break is appended before every page except the first. -/
def convertAux : Nat → List Page → List Node → Option (List Node)
  | _, [], acc => some acc
  | n, p :: rest, acc =>
    let acc2 := if n > 1 then acc ++ [Node.pageBreak] else acc
    match pageNodes p with
    | none => none
    | some ns => convertAux (n + 1) rest (acc2 ++ ns)

/-- `ultra_preserve_formatting(pdf_path)`: the emitted node sequence, or
`none` when an exception aborts the conversion. -/
def ultraPreserve (pages : List Page) : Option (List Node) :=
  convertAux 1 pages []

/-- Helper describing the claimed output shape: page node lists joined
with a page break before every page except the first. -/
def joinPages : List (List Node) → List Node
  | [] => []
  | h :: t => h ++ t.flatMap (fun l => Node.pageBreak :: l)

/-- Outcome of one top-level run (the `__main__` block of
ultra_converter.py lines 263-287): what was saved, and whether the error
handler ran. -/
structure RunOutcome where
  saved : Option (List Node)
  errored : Bool
deriving DecidableEq, Repr

/-- The `try`/`except` of the main block: `doc.save` is reached only when
`ultra_preserve_formatting` returned normally; any exception skips the
save and prints the error message. -/
def mainUltra (pages : List Page) : RunOutcome :=
  match ultraPreserve pages with
  | some doc => { saved := some doc, errored := false }
  | none => { saved := none, errored := true }

/-- A grid violating the width precondition: its second row is wider than
its first, so the cell write at row 1, column 1 is out of bounds. -/
def badGrid : Grid := [[some ['x']], [some ['a'], some ['b']]]

/-- A page whose only table is `badGrid`: converting it raises. -/
def failPage : Page := { tables := [badGrid], chars := [], extractText := [] }

/-- A small concrete character set: the line "T" above the line "ab"
(page coordinates have their origin at the bottom left). -/
def demoChars : List PChar :=
  [{ text := ['b'], x0 := 10, y0 := 0, size := none, fontname := none },
   { text := ['a'], x0 := 2, y0 := 0, size := none, fontname := none },
   { text := ['T'], x0 := 0, y0 := 20, size := none, fontname := none }]

/-- The 3-row, 2-column table grid of the spec's Scenario 4. -/
def demoGrid : Grid :=
  [[some (String.toList "Name"), some (String.toList "Age")],
   [some (String.toList "Alice"), some (String.toList "30")],
   [some (String.toList "Bob"), some (String.toList "25")]]

/-- A two-page document: one 1-by-1 table on the first page, and a
second page with no characters and no tables whose plain-text fallback
yields "HI". -/
def demoPages : List Page :=
  [{ tables := [[[some ['a']]]], chars := [], extractText := [] },
   { tables := [], chars := [], extractText := ['H', 'I'] }]

instance : IsTotal PChar (fun a b => a.x0 ≤ b.x0) :=
  ⟨fun a b => le_total a.x0 b.x0⟩

instance : IsTrans PChar (fun a b => a.x0 ≤ b.x0) :=
  ⟨fun _ _ _ h1 h2 => le_trans h1 h2⟩

/-! ## Helper lemmas -/

/-- The head surviving a `dropWhile` fails the predicate. -/
theorem head_dropWhile_false {p : Char → Bool} {l : List Char} {c : Char}
    (h : (l.dropWhile p).head? = some c) : p c = false := by
  induction l with
  | nil => simp at h
  | cons a t ih =>
    rw [List.dropWhile_cons] at h
    by_cases hp : p a = true
    · exact ih (by simpa [hp] using h)
    · simp only [hp, if_false] at h
      cases h
      simpa using hp

/-- A list whose head fails the predicate is unchanged by `dropWhile`. -/
theorem dropWhile_eq_self_of_head {p : Char → Bool} {l : List Char}
    (h : ∀ c, l.head? = some c → p c = false) : l.dropWhile p = l := by
  cases l with
  | nil => rfl
  | cons a t => simp [List.dropWhile_cons, h a rfl]

/-- `dropWhile` is idempotent. -/
theorem dropWhile_idem (p : Char → Bool) (l : List Char) :
    (l.dropWhile p).dropWhile p = l.dropWhile p := by
  apply dropWhile_eq_self_of_head
  intro c hc
  exact head_dropWhile_false hc

/-- A non-empty `dropWhile` keeps the last element of the list. -/
theorem getLast?_dropWhile (p : Char → Bool) (l : List Char)
    (h : l.dropWhile p ≠ []) : (l.dropWhile p).getLast? = l.getLast? := by
  induction l with
  | nil => simp at h
  | cons a t ih =>
    rw [List.dropWhile_cons]
    rw [List.dropWhile_cons] at h
    by_cases hp : p a = true
    · simp only [hp, if_true] at h ⊢
      have ht : t ≠ [] := by
        intro e
        exact h (by simp [e])
      rw [ih h]
      cases t with
      | nil => exact absurd rfl ht
      | cons b r => simp [List.getLast?_cons]
    · simp [hp]

/-- The head of a stripped string is not whitespace. -/
theorem pyStrip_head_not_space (l : List Char) (c : Char)
    (h : (pyStrip l).head? = some c) : pyIsSpaceChar c = false := by
  unfold pyStrip at h
  rw [List.head?_reverse] at h
  have hne : (l.dropWhile pyIsSpaceChar).reverse.dropWhile pyIsSpaceChar ≠ [] := by
    intro e
    rw [e] at h
    simp at h
  rw [getLast?_dropWhile _ _ hne, List.getLast?_reverse] at h
  exact head_dropWhile_false h

/-- `pyStrip` is idempotent. -/
theorem pyStrip_idem (l : List Char) : pyStrip (pyStrip l) = pyStrip l := by
  have h1 : (pyStrip l).dropWhile pyIsSpaceChar = pyStrip l :=
    dropWhile_eq_self_of_head (fun c hc => pyStrip_head_not_space l c hc)
  show ((((pyStrip l).dropWhile pyIsSpaceChar).reverse.dropWhile pyIsSpaceChar).reverse) = pyStrip l
  rw [h1]
  unfold pyStrip
  rw [List.reverse_reverse, dropWhile_idem]

/-- A string with no leading glyph-class character is unchanged by the
glyph-stripping stage. -/
theorem dropWhile_glyph_noop (l : List Char) (h : matchGlyph l = false) :
    l.dropWhile isGlyphClass = l := by
  cases l with
  | nil => rfl
  | cons c t =>
    have hc : isGlyphClass c = false := by simpa [matchGlyph] using h
    simp [List.dropWhile_cons, hc]

/-- A string with no leading numeric marker is unchanged by the numeric
stripping stage. -/
theorem stripNumMarker_noop (l : List Char) (h : numDotStart l = false) :
    stripNumMarker l = l := by
  unfold numDotStart at h
  unfold stripNumMarker
  rw [if_neg (by simpa using h)]

/-- A fixed point characterisation: text with no leading glyph-class
character, no leading numeric marker, and no surrounding whitespace is
unchanged by the full stripper. -/
theorem cleanBullet_fixed (r : List Char) (hg : matchGlyph r = false)
    (hn : numDotStart r = false) (hs : pyStrip r = r) :
    cleanBullet r = r := by
  unfold cleanBullet
  rw [dropWhile_glyph_noop r hg, hs, stripNumMarker_noop r hn, hs]

/-- C6 (counterexample): the bullet-marker stripper is not idempotent.
On "1.-x" the numeric stage uncovers a glyph marker: one application
yields "-x", a second strips further to "x". -/
theorem cleanBullet_idem_cex :
    cleanBullet (String.toList "1.-x") = String.toList "-x" ∧
    cleanBullet (cleanBullet (String.toList "1.-x")) = String.toList "x" ∧
    cleanBullet (cleanBullet (String.toList "1.-x")) ≠
      cleanBullet (String.toList "1.-x") := by
  decide

/-- C6 (amended): applying the bullet-marker stripper to the result of
stripping `s` returns that result unchanged, provided the stripped result
does not itself begin with a bullet-glyph-class character or a numeric
list marker. -/
theorem cleanBullet_idem_of_stripped (s : List Char)
    (hg : matchGlyph (cleanBullet s) = false)
    (hn : numDotStart (cleanBullet s) = false) :
    cleanBullet (cleanBullet s) = cleanBullet s := by
  refine cleanBullet_fixed _ hg hn ?_
  unfold cleanBullet
  exact pyStrip_idem _

/-- C6 (witness): the amended idempotence instantiated at "• hello". -/
theorem cleanBullet_idem_of_stripped_w :
    matchGlyph (cleanBullet (String.toList "• hello")) = false ∧
    numDotStart (cleanBullet (String.toList "• hello")) = false ∧
    cleanBullet (cleanBullet (String.toList "• hello")) =
      cleanBullet (String.toList "• hello") :=
  ⟨by decide, by decide,
   cleanBullet_idem_of_stripped (String.toList "• hello") (by decide) (by decide)⟩

/-- C1 (counterexample): the all-caps line "SUMMARY" (length 7, below 30,
containing a section keyword, font size 12, indent 0) is classified
heading2, not section_header: the all-caps rule fires first. -/
theorem classify_allcaps_keyword_cex :
    pyIsUpper (String.toList "SUMMARY") = true ∧
    (String.toList "SUMMARY").length < 30 ∧
    hasSectionKeyword (String.toList "SUMMARY") = true ∧
    classify (String.toList "SUMMARY") 12 0 = BlockType.heading2 ∧
    classify (String.toList "SUMMARY") 12 0 ≠ BlockType.section_header := by
  decide

/-- C1 (amended): an all-uppercase line shorter than 30 characters that
contains a resume-section keyword is classified heading2 (for any font
size at most 16 and any indent); the section_header rule is shadowed by
the all-caps rule. -/
theorem classify_allcaps_keyword_heading2 (text : List Char) (fs ind : ℚ)
    (hfs : fs ≤ 16) (hup : pyIsUpper text = true) (hlen : text.length < 30)
    (_hkw : hasSectionKeyword text = true) :
    classify text fs ind = BlockType.heading2 := by
  have h1 : ¬ fs > 16 := not_lt.mpr hfs
  have h3 : pyIsUpper text = true ∧ text.length < 50 :=
    ⟨hup, Nat.lt_trans hlen (by norm_num)⟩
  unfold classify
  rw [if_neg h1]
  by_cases h2 : fs > 14
  · rw [if_pos h2]
  · rw [if_neg h2, if_pos h3]

/-- C1 (witness): the amended classification instantiated at
"SUMMARY" with font size 12 and indent 0. -/
theorem classify_allcaps_keyword_heading2_w :
    (12 : ℚ) ≤ 16 ∧ pyIsUpper (String.toList "SUMMARY") = true ∧
    (String.toList "SUMMARY").length < 30 ∧
    hasSectionKeyword (String.toList "SUMMARY") = true ∧
    classify (String.toList "SUMMARY") 12 0 = BlockType.heading2 :=
  ⟨by decide, by decide, by decide, by decide,
   classify_allcaps_keyword_heading2 (String.toList "SUMMARY") 12 0
     (by decide) (by decide) (by decide) (by decide)⟩

/-- C7 (counterexample): "a. item" matches the alphabetic list-marker
pattern, is non-empty, has font size below 14 and is not all-caps, yet
the ultra classifier assigns paragraph, not bullet: its bullet rule only
recognises glyph and numeric markers. -/
theorem classify_alpha_marker_cex :
    matchesAlphaMarker (String.toList "a. item") = true ∧
    String.toList "a. item" ≠ [] ∧
    ¬ (pyIsUpper (String.toList "a. item") = true ∧
        (String.toList "a. item").length < 50) ∧
    classify (String.toList "a. item") 12 0 = BlockType.paragraph ∧
    classify (String.toList "a. item") 12 0 ≠ BlockType.bullet := by
  decide

/-- C7 (amended): a line matching a leading alphabetic list marker but no
glyph or numeric marker, with no higher-priority rule applying (font size
at most 14, not all-uppercase-under-50) and no later rule applying (no
phone or email substring, no section keyword under 30 characters, indent
at most 50) is classified paragraph: the ultra classifier's bullet rule
does not recognise alphabetic markers. -/
theorem classify_alpha_marker_paragraph (text : List Char) (fs ind : ℚ)
    (_ha : matchesAlphaMarker text = true)
    (hfs : fs ≤ 14)
    (hup : ¬ (pyIsUpper text = true ∧ text.length < 50))
    (hg : matchGlyph text = false) (hn : matchNumMarker text = false)
    (hp : phoneSearch text = false) (he : emailSearch text = false)
    (hk : ¬ (hasSectionKeyword text = true ∧ text.length < 30))
    (hi : ind ≤ 50) :
    classify text fs ind = BlockType.paragraph := by
  have h1 : ¬ fs > 16 := not_lt.mpr (le_trans hfs (by norm_num))
  have h2 : ¬ fs > 14 := not_lt.mpr hfs
  have h4 : ¬ (matchGlyph text = true ∨ matchNumMarker text = true) := by
    simp [hg, hn]
  unfold classify
  rw [if_neg h1, if_neg h2, if_neg hup, if_neg h4, if_neg (by simp [hp]),
    if_neg (by simp [he]), if_neg hk, if_neg (not_lt.mpr hi)]

/-- C7 (witness): the amended classification instantiated at "a. item"
with font size 12 and indent 0. -/
theorem classify_alpha_marker_paragraph_w :
    matchesAlphaMarker (String.toList "a. item") = true ∧
    classify (String.toList "a. item") 12 0 = BlockType.paragraph :=
  ⟨by decide,
   classify_alpha_marker_paragraph (String.toList "a. item") 12 0
     (by decide) (by decide) (by decide) (by decide) (by decide)
     (by decide) (by decide) (by decide) (by decide)⟩

/-- C5 (counterexample): a bullet block whose text is a lone bullet glyph
strips to the empty string, and the block emitter appends no node at all
for it, not exactly one. -/
theorem blockEmitter_single_append_cex :
    (addFormattedTextBlock
      { type := BlockType.bullet, text := ['•'], font_size := 12,
        font := [], indent := 0 }).length = 0 ∧
    (addFormattedTextBlock
      { type := BlockType.bullet, text := ['•'], font_size := 12,
        font := [], indent := 0 }).length ≠ 1 := by
  decide

/-- C5 (amended): the block emitter performs exactly one append per text
block, except for a bullet block whose marker-stripped text is empty,
for which it performs none. -/
theorem blockEmitter_append_count (b : Block) :
    (addFormattedTextBlock b).length =
      if b.type = BlockType.bullet ∧ cleanBullet b.text = [] then 0 else 1 := by
  obtain ⟨ty, tx, fs, f, ind⟩ := b
  cases ty <;> simp [addFormattedTextBlock]
  by_cases h : cleanBullet tx = [] <;> simp [h]

/-- C9: whenever the conversion aborts with an exception, the main block
prints the error and saves nothing: the save operation is reached only on
the fully successful path. -/
theorem main_no_save_on_error (pages : List Page)
    (h : ultraPreserve pages = none) :
    (mainUltra pages).saved = none ∧ (mainUltra pages).errored = true := by
  simp [mainUltra, h]

/-- C9 (witness): a run on a page whose table grid has a second row wider
than its first row fails during table emission, and nothing is saved. -/
theorem main_no_save_on_error_w :
    ultraPreserve [failPage] = none ∧
    ((mainUltra [failPage]).saved = none ∧
      (mainUltra [failPage]).errored = true) :=
  ⟨by decide, main_no_save_on_error [failPage] (by decide)⟩

/-- Inserting a size-defaulted character into a size-defaulted list is the
size-defaulting of the plain insertion: `fillSize` preserves `x0`. -/
theorem orderedInsert_map_fillSize (a : PChar) (l : List PChar) :
    List.orderedInsert (fun x y => x.x0 ≤ y.x0) (fillSize a) (l.map fillSize) =
      (List.orderedInsert (fun x y => x.x0 ≤ y.x0) a l).map fillSize := by
  induction l with
  | nil => rfl
  | cons b t ih =>
    show List.orderedInsert _ (fillSize a) (fillSize b :: t.map fillSize) =
      (List.orderedInsert _ a (b :: t)).map fillSize
    unfold List.orderedInsert
    by_cases h : a.x0 ≤ b.x0
    · rw [if_pos h, if_pos (show (fillSize a).x0 ≤ (fillSize b).x0 from h)]
      rfl
    · rw [if_neg h, if_neg (show ¬ (fillSize a).x0 ≤ (fillSize b).x0 from h)]
      show fillSize b :: List.orderedInsert _ (fillSize a) (t.map fillSize) =
        (b :: List.orderedInsert _ a t).map fillSize
      rw [List.map_cons, ih]

/-- Sorting by `x0` commutes with size-defaulting. -/
theorem insertionSort_map_fillSize (l : List PChar) :
    List.insertionSort (fun x y => x.x0 ≤ y.x0) (l.map fillSize) =
      (List.insertionSort (fun x y => x.x0 ≤ y.x0) l).map fillSize := by
  induction l with
  | nil => rfl
  | cons b t ih =>
    show List.orderedInsert _ (fillSize b)
        (List.insertionSort _ (t.map fillSize)) = _
    rw [ih, orderedInsert_map_fillSize]
    rfl

/-- The sorted quantization keys are unchanged by size-defaulting. -/
theorem sortedKeys_map_fillSize (chars : List PChar) :
    sortedKeys (chars.map fillSize) = sortedKeys chars := by
  unfold sortedKeys
  rw [List.map_map]
  rfl

/-- `fillSize` preserves the text field. -/
theorem fillSize_text (c : PChar) : (fillSize c).text = c.text := rfl

/-- `fillSize` preserves the horizontal position. -/
theorem fillSize_x0 (c : PChar) : (fillSize c).x0 = c.x0 := rfl

/-- `fillSize` preserves the font name. -/
theorem fillSize_fontname (c : PChar) : (fillSize c).fontname = c.fontname := rfl

/-- Defaulting the size of a defaulted character reads back the same
value. -/
theorem fillSize_sizeD (c : PChar) : (fillSize c).size.getD 12 = c.size.getD 12 := rfl

/-- One line group yields the same block whether or not its characters
have been size-defaulted. -/
theorem lineBlock_map_fillSize (k : ℚ) (g : List PChar) :
    lineBlock (k, g.map fillSize) = lineBlock (k, g) := by
  unfold lineBlock
  rw [show lineCharsSorted (k, g.map fillSize) =
      (lineCharsSorted (k, g)).map fillSize from insertionSort_map_fillSize g]
  simp only [List.flatMap_map, List.map_map, Function.comp_def, fillSize_text,
    fillSize_x0, fillSize_sizeD, fillSize_fontname]

/-- C3: the classifier is pure and total: every input triple yields
exactly one kind from the fixed enumeration (and, trivially of a Lean
function, it never fails); and characters with missing font-size metadata
are defaulted to 12 before averaging, so the analysis of any character
set equals the analysis of the same set with every missing size replaced
by 12. -/
theorem classifier_total_and_default12 :
    (∀ (text : List Char) (fs ind : ℚ),
      classify text fs ind ∈ [BlockType.heading1, BlockType.heading2,
        BlockType.bullet, BlockType.contact, BlockType.section_header,
        BlockType.indented, BlockType.paragraph]) ∧
    (∀ chars : List PChar,
      analyzeTextBlocks (chars.map fillSize) = analyzeTextBlocks chars) := by
  constructor
  · intro text fs ind
    unfold classify
    split_ifs <;> simp
  · intro chars
    unfold analyzeTextBlocks quantGroups
    rw [sortedKeys_map_fillSize, List.map_map, List.map_map]
    apply List.map_congr_left
    intro k _
    show lineBlock (k, (chars.map fillSize).filter _) =
      lineBlock (k, chars.filter _)
    rw [List.filter_map]
    exact lineBlock_map_fillSize k _

/-- A list sorted weakly descending with no duplicates is sorted strictly
descending. -/
theorem sorted_gt_of_ge_nodup {l : List ℚ} (hs : l.Sorted (· ≥ ·))
    (hn : l.Nodup) : l.Sorted (· > ·) :=
  (List.Pairwise.and hs hn).imp
    (fun hab => lt_of_le_of_ne hab.1 (Ne.symm hab.2))

/-- The sorted key list has no duplicate keys. -/
theorem sortedKeys_nodup (chars : List PChar) : (sortedKeys chars).Nodup :=
  (List.perm_insertionSort _ _).nodup_iff.mpr (List.nodup_dedup _)

/-- Key membership: the sorted keys are exactly the quantized positions
occurring in the character set. -/
theorem mem_sortedKeys {chars : List PChar} {k : ℚ} :
    k ∈ sortedKeys chars ↔ ∃ c ∈ chars, quantY c.y0 = k := by
  unfold sortedKeys
  rw [List.mem_insertionSort, List.mem_dedup, List.mem_map]

/-- Pointwise permutation along a `flatMap`. -/
theorem flatMap_perm_congr {α β : Type} (l : List α) (f g : α → List β)
    (h : ∀ a ∈ l, (f a).Perm (g a)) : (l.flatMap f).Perm (l.flatMap g) := by
  induction l with
  | nil => simp
  | cons a t ih =>
    rw [List.flatMap_cons, List.flatMap_cons]
    exact (h a (by simp)).append (ih (fun b hb => h b (by simp [hb])))

/-- Partitioning a character list by a duplicate-free covering key list
and concatenating the parts permutes the original list. -/
theorem keyPartition_perm : ∀ (ks : List ℚ) (cs : List PChar), ks.Nodup →
    (∀ c ∈ cs, quantY c.y0 ∈ ks) →
    (ks.flatMap (fun k => cs.filter (fun c => decide (quantY c.y0 = k)))).Perm cs := by
  intro ks
  induction ks with
  | nil =>
    intro cs _ hcov
    have : cs = [] := by
      rw [List.eq_nil_iff_forall_not_mem]
      intro c hc
      exact absurd (hcov c hc) (by simp)
    simp [this]
  | cons k ks ih =>
    intro cs hnd hcov
    have hk : k ∉ ks := (List.nodup_cons.mp hnd).1
    have hnd' : ks.Nodup := (List.nodup_cons.mp hnd).2
    rw [List.flatMap_cons]
    have hstep : ks.flatMap (fun j => cs.filter (fun c => decide (quantY c.y0 = j))) =
        ks.flatMap (fun j =>
          (cs.filter (fun c => !(decide (quantY c.y0 = k)))).filter
            (fun c => decide (quantY c.y0 = j))) := by
      apply List.flatMap_congr
      intro j hj
      rw [List.filter_filter]
      apply List.filter_congr
      intro c _
      have hjk : j ≠ k := fun e => hk (e ▸ hj)
      by_cases hqk : quantY c.y0 = k
      · have hkj : ¬ k = j := fun e => hjk e.symm
        simp [hqk, hkj]
      · simp [hqk]
    rw [hstep]
    have hcov' : ∀ c ∈ cs.filter (fun c => !(decide (quantY c.y0 = k))),
        quantY c.y0 ∈ ks := by
      intro c hc
      rcases List.mem_filter.mp hc with ⟨hcs, hne⟩
      have := hcov c hcs
      rcases List.mem_cons.mp this with he | hm
      · exfalso
        simp [he] at hne
      · exact hm
    have h1 := ih (cs.filter (fun c => !(decide (quantY c.y0 = k)))) hnd' hcov'
    exact List.Perm.trans (List.Perm.append_left _ h1)
      (List.filter_append_perm _ cs)

/-- C2: for every non-empty character set, the line grouper produces a
non-empty sequence of lines whose quantized vertical keys are strictly
descending (top of page first); within each line the characters are
sorted by ascending horizontal position and all carry that line's key;
and the concatenation of the produced lines is a permutation of the
input characters, so the concatenated text follows top-to-bottom,
left-to-right reading order. -/
theorem lineGrouper_reading_order (chars : List PChar) (h : chars ≠ []) :
    quantGroups chars ≠ [] ∧
    ((quantGroups chars).map Prod.fst).Sorted (· > ·) ∧
    (∀ g ∈ quantGroups chars, g.2 ≠ [] ∧
      (lineCharsSorted g).Sorted (fun a b => a.x0 ≤ b.x0) ∧
      ∀ c ∈ lineCharsSorted g, quantY c.y0 = g.1) ∧
    ((quantGroups chars).flatMap lineCharsSorted).Perm chars := by
  have hfst : (quantGroups chars).map Prod.fst = sortedKeys chars := by
    unfold quantGroups
    rw [List.map_map]
    exact List.map_id _
  refine ⟨?_, ?_, ?_, ?_⟩
  · intro he
    rcases List.exists_mem_of_ne_nil chars h with ⟨c, hc⟩
    have : quantY c.y0 ∈ sortedKeys chars := mem_sortedKeys.mpr ⟨c, hc, rfl⟩
    rw [← hfst] at this
    rw [he] at this
    simp at this
  · rw [hfst]
    exact sorted_gt_of_ge_nodup (List.sorted_insertionSort _ _)
      (sortedKeys_nodup chars)
  · intro g hg
    rcases List.mem_map.mp hg with ⟨k, hk, he⟩
    subst he
    refine ⟨?_, ?_, ?_⟩
    · rcases mem_sortedKeys.mp hk with ⟨c, hc, hq⟩
      exact List.ne_nil_of_mem (List.mem_filter.mpr ⟨hc, by simp [hq]⟩)
    · exact List.sorted_insertionSort _ _
    · intro c hc
      unfold lineCharsSorted at hc
      rw [List.mem_insertionSort] at hc
      exact of_decide_eq_true (List.mem_filter.mp hc).2
  · have h1 : ((quantGroups chars).flatMap lineCharsSorted).Perm
        ((quantGroups chars).flatMap (fun g => g.2)) := by
      apply flatMap_perm_congr
      intro g _
      exact List.perm_insertionSort _ _
    have h2 : (quantGroups chars).flatMap (fun g => g.2) =
        (sortedKeys chars).flatMap
          (fun k => chars.filter (fun c => decide (quantY c.y0 = k))) := by
      unfold quantGroups
      rw [List.flatMap_map]
    have h3 := keyPartition_perm (sortedKeys chars) chars (sortedKeys_nodup chars)
      (fun c hc => mem_sortedKeys.mpr ⟨c, hc, rfl⟩)
    rw [h2] at h1
    exact h1.trans h3

/-- C2 (witness): the reading-order guarantee instantiated at a two-line,
three-character page. -/
theorem lineGrouper_reading_order_w :
    demoChars ≠ [] ∧
    (quantGroups demoChars ≠ [] ∧
      ((quantGroups demoChars).map Prod.fst).Sorted (· > ·) ∧
      (∀ g ∈ quantGroups demoChars, g.2 ≠ [] ∧
        (lineCharsSorted g).Sorted (fun a b => a.x0 ≤ b.x0) ∧
        ∀ c ∈ lineCharsSorted g, quantY c.y0 = g.1) ∧
      ((quantGroups demoChars).flatMap lineCharsSorted).Perm demoChars) := by
  constructor
  · decide
  · exact lineGrouper_reading_order demoChars (by decide)

/-- Reading the updated index of a `set` returns the written value. -/
theorem getD_set_eq {α : Type} (l : List α) (i : Nat) (v d : α)
    (h : i < l.length) : (l.set i v).getD i d = v := by
  rw [List.getD_eq_getElem?_getD, List.getElem?_set_self h]
  rfl

/-- Reading another index of a `set` returns the original value. -/
theorem getD_set_ne {α : Type} (l : List α) (i r : Nat) (v d : α)
    (h : r ≠ i) : (l.set i v).getD r d = l.getD r d := by
  rw [List.getD_eq_getElem?_getD, List.getElem?_set_ne (Ne.symm h),
    ← List.getD_eq_getElem?_getD]

/-- An in-range `getD` is a member of the list. -/
theorem getD_mem {α : Type} (l : List α) (n : Nat) (d : α)
    (h : n < l.length) : l.getD n d ∈ l := by
  rw [List.getD_eq_getElem?_getD, List.getElem?_eq_getElem h]
  exact List.getElem_mem h

/-- Every cell of the freshly allocated table row reads back empty. -/
theorem getD_replicate_nil (n j : Nat) :
    (List.replicate n ([] : List Char)).getD j [] = [] := by
  rw [List.getD_eq_getElem?_getD, List.getElem?_replicate]
  split <;> rfl

/-- An in-range row of the freshly allocated table is a row of empty
cells. -/
theorem getD_mkEmptyTable (R C r : Nat) (h : r < R) :
    (mkEmptyTable R C).getD r [] = List.replicate C [] := by
  unfold mkEmptyTable
  rw [List.getD_eq_getElem?_getD, List.getElem?_replicate, if_pos h]
  rfl

/-- Full characterisation of the inner cell loop: when the enumerated
cells fit inside row `i` of the table, the loop succeeds, touches only
row `i`, preserves all lengths, and writes exactly the truthy cells
(stripped) at their enumeration offsets. -/
theorem fillRowAux_spec :
    ∀ (cs : List (Option (List Char))) (i j : Nat)
      (w : List (List (List Char))),
    i < w.length → j + cs.length ≤ (w.getD i []).length →
    ∃ w2, fillRowAux cs i j w = some w2 ∧
      w2.length = w.length ∧
      (∀ r, r ≠ i → w2.getD r [] = w.getD r []) ∧
      (w2.getD i []).length = (w.getD i []).length ∧
      (∀ c : Nat,
        (w2.getD i []).getD c [] =
          if j ≤ c ∧ c - j < cs.length ∧ cellTruthy (cs.getD (c - j) none) = true
          then pyStrip ((cs.getD (c - j) none).getD [])
          else (w.getD i []).getD c []) := by
  intro cs
  induction cs with
  | nil =>
    intro i j w hi _
    refine ⟨w, rfl, rfl, fun _ _ => rfl, rfl, ?_⟩
    intro c
    rw [if_neg]
    rintro ⟨-, h2, -⟩
    simp at h2
  | cons c0 cs ih =>
    intro i j w hi hj
    simp only [List.length_cons] at hj
    by_cases ht : cellTruthy c0 = true
    · have hj0 : j < (w.getD i []).length := by omega
      have hw' : writeCell w i j (pyStrip (c0.getD [])) =
          some (w.set i ((w.getD i []).set j (pyStrip (c0.getD [])))) := by
        unfold writeCell
        rw [if_pos ⟨hi, hj0⟩]
      set v := pyStrip (c0.getD []) with hv
      set w1 := w.set i ((w.getD i []).set j v) with hw1
      have hi1 : i < w1.length := by rw [hw1, List.length_set]; exact hi
      have hrowlen : (w1.getD i []).length = (w.getD i []).length := by
        rw [hw1, getD_set_eq _ _ _ _ hi, List.length_set]
      have hj1 : (j + 1) + cs.length ≤ (w1.getD i []).length := by
        rw [hrowlen]; omega
      obtain ⟨w2, he, hlen, hothers, hrlen, hcells⟩ := ih i (j + 1) w1 hi1 hj1
      refine ⟨w2, ?_, ?_, ?_, ?_, ?_⟩
      · show fillRowAux (c0 :: cs) i j w = some w2
        simp only [fillRowAux]
        rw [if_pos ht, hw']
        exact he
      · rw [hlen, hw1, List.length_set]
      · intro r hr
        rw [hothers r hr, hw1, getD_set_ne _ _ _ _ _ hr]
      · rw [hrlen, hrowlen]
      · intro c
        rcases Nat.lt_trichotomy c j with hlt | heq | hgt
        · rw [hcells c, if_neg (by rintro ⟨h1, -, -⟩; omega),
            if_neg (by rintro ⟨h1, -, -⟩; omega),
            hw1, getD_set_eq _ _ _ _ hi,
            getD_set_ne _ _ _ _ _ (by omega : c ≠ j)]
        · subst heq
          have h0 : (c0 :: cs).getD (c - c) none = c0 := by
            simp [Nat.sub_self]
          rw [hcells c, if_neg (by rintro ⟨h1, -, -⟩; omega),
            if_pos ⟨le_refl c, by simp only [List.length_cons]; omega,
              by rw [h0]; exact ht⟩, h0,
            hw1, getD_set_eq _ _ _ _ hi, getD_set_eq _ _ _ _ hj0]
        · have hidx : (c0 :: cs).getD (c - j) none = cs.getD (c - (j + 1)) none := by
            have hcj : c - j = (c - (j + 1)) + 1 := by omega
            rw [hcj, List.getD_cons_succ]
          have hcondiff : (j ≤ c ∧ c - j < (c0 :: cs).length ∧
              cellTruthy ((c0 :: cs).getD (c - j) none) = true) ↔
              ((j + 1) ≤ c ∧ c - (j + 1) < cs.length ∧
                cellTruthy (cs.getD (c - (j + 1)) none) = true) := by
            rw [hidx]
            simp only [List.length_cons]
            constructor
            · rintro ⟨h1, h2, h3⟩
              exact ⟨by omega, by omega, h3⟩
            · rintro ⟨h1, h2, h3⟩
              exact ⟨by omega, by omega, h3⟩
          rw [hcells c]
          by_cases hcnd : (j + 1) ≤ c ∧ c - (j + 1) < cs.length ∧
              cellTruthy (cs.getD (c - (j + 1)) none) = true
          · rw [if_pos hcnd, if_pos (hcondiff.mpr hcnd), hidx]
          · rw [if_neg hcnd, if_neg (fun hh => hcnd (hcondiff.mp hh)),
              hw1, getD_set_eq _ _ _ _ hi,
              getD_set_ne _ _ _ _ _ (by omega : c ≠ j)]
    · obtain ⟨w2, he, hlen, hothers, hrlen, hcells⟩ :=
        ih i (j + 1) w hi (by omega)
      refine ⟨w2, ?_, hlen, hothers, hrlen, ?_⟩
      · show fillRowAux (c0 :: cs) i j w = some w2
        simp only [fillRowAux]
        rw [if_neg ht]
        exact he
      · intro c
        rcases Nat.lt_trichotomy c j with hlt | heq | hgt
        · rw [hcells c, if_neg (by rintro ⟨h1, -, -⟩; omega),
            if_neg (by rintro ⟨h1, -, -⟩; omega)]
        · subst heq
          have hcnd2 : ¬ (c ≤ c ∧ c - c < (c0 :: cs).length ∧
              cellTruthy ((c0 :: cs).getD (c - c) none) = true) := by
            rintro ⟨-, -, h3⟩
            apply ht
            simpa [Nat.sub_self] using h3
          rw [hcells c, if_neg (by rintro ⟨h1, -, -⟩; omega), if_neg hcnd2]
        · have hidx : (c0 :: cs).getD (c - j) none = cs.getD (c - (j + 1)) none := by
            have hcj : c - j = (c - (j + 1)) + 1 := by omega
            rw [hcj, List.getD_cons_succ]
          have hcondiff : (j ≤ c ∧ c - j < (c0 :: cs).length ∧
              cellTruthy ((c0 :: cs).getD (c - j) none) = true) ↔
              ((j + 1) ≤ c ∧ c - (j + 1) < cs.length ∧
                cellTruthy (cs.getD (c - (j + 1)) none) = true) := by
            rw [hidx]
            simp only [List.length_cons]
            constructor
            · rintro ⟨h1, h2, h3⟩
              exact ⟨by omega, by omega, h3⟩
            · rintro ⟨h1, h2, h3⟩
              exact ⟨by omega, by omega, h3⟩
          rw [hcells c]
          by_cases hcnd : (j + 1) ≤ c ∧ c - (j + 1) < cs.length ∧
              cellTruthy (cs.getD (c - (j + 1)) none) = true
          · rw [if_pos hcnd, if_pos (hcondiff.mpr hcnd), hidx]
          · rw [if_neg hcnd, if_neg (fun hh => hcnd (hcondiff.mp hh))]

/-- Full characterisation of the outer row loop: when every remaining row
fits inside the corresponding allocated table row, the loop succeeds,
preserves all lengths, leaves rows outside the written range unchanged,
and fills each written row according to `fillRowAux_spec`. -/
theorem fillTableAux_spec :
    ∀ (g : Grid) (i : Nat) (w : List (List (List Char))),
    i + g.length ≤ w.length →
    (∀ r, r < g.length → (g.getD r []).length ≤ (w.getD (i + r) []).length) →
    ∃ w2, fillTableAux g i w = some w2 ∧
      w2.length = w.length ∧
      (∀ r, (w2.getD r []).length = (w.getD r []).length) ∧
      (∀ r, (r < i ∨ i + g.length ≤ r) → w2.getD r [] = w.getD r []) ∧
      (∀ r c : Nat, i ≤ r → r < i + g.length →
        (w2.getD r []).getD c [] =
          if c < (g.getD (r - i) []).length ∧
              cellTruthy ((g.getD (r - i) []).getD c none) = true
          then pyStrip (((g.getD (r - i) []).getD c none).getD [])
          else (w.getD r []).getD c []) := by
  intro g
  induction g with
  | nil =>
    intro i w _ _
    exact ⟨w, rfl, rfl, fun _ => rfl, fun _ _ => rfl, fun r c h1 h2 => by
      simp only [List.length_nil] at h2
      omega⟩
  | cons row rest ih =>
    intro i w hlen hrow
    simp only [List.length_cons] at hlen
    have hi : i < w.length := by omega
    have hfit : 0 + row.length ≤ (w.getD i []).length := by
      have := hrow 0 (by simp)
      simpa using this
    obtain ⟨w1, he1, hlen1, hoth1, hrlen1, hcell1⟩ :=
      fillRowAux_spec row i 0 w hi hfit
    have hlen' : (i + 1) + rest.length ≤ w1.length := by
      rw [hlen1]; omega
    have hrow' : ∀ r, r < rest.length →
        (rest.getD r []).length ≤ (w1.getD ((i + 1) + r) []).length := by
      intro r hr
      rw [hoth1 ((i + 1) + r) (by omega)]
      have := hrow (r + 1) (by simp only [List.length_cons]; omega)
      simp only [List.getD_cons_succ] at this
      have harith : i + (r + 1) = (i + 1) + r := by omega
      rw [harith] at this
      exact this
    obtain ⟨w2, he2, hlen2, hrlen2, hoth2, hcell2⟩ := ih (i + 1) w1 hlen' hrow'
    refine ⟨w2, ?_, ?_, ?_, ?_, ?_⟩
    · show fillTableAux (row :: rest) i w = some w2
      simp only [fillTableAux]
      rw [he1]
      exact he2
    · rw [hlen2, hlen1]
    · intro r
      rw [hrlen2 r]
      by_cases hr : r = i
      · subst hr
        exact hrlen1
      · rw [hoth1 r hr]
    · intro r hr
      have hr1 : r < i + 1 ∨ (i + 1) + rest.length ≤ r := by
        rcases hr with h | h
        · left; omega
        · right; simp only [List.length_cons] at h; omega
      rw [hoth2 r hr1]
      have hrne : r ≠ i := by
        rcases hr with h | h
        · omega
        · simp only [List.length_cons] at h; omega
      exact hoth1 r hrne
    · intro r c hge hlt
      simp only [List.length_cons] at hlt
      by_cases hri : r = i
      · subst hri
        rw [hoth2 r (by omega), hcell1 c]
        have h00 : (row :: rest).getD (r - r) [] = row := by
          simp [Nat.sub_self]
        rw [h00]
        simp only [Nat.zero_le, true_and, Nat.sub_zero]
      · rw [hcell2 r c (by omega) (by omega)]
        have hidx : (row :: rest).getD (r - i) [] = rest.getD (r - (i + 1)) [] := by
          have hr2 : r - i = (r - (i + 1)) + 1 := by omega
          rw [hr2, List.getD_cons_succ]
        rw [hidx, hoth1 r hri]

/-- The table emitter succeeds on any grid whose rows all fit within the
width of its first row, and produces exactly the trimmed truthy cells. -/
theorem emitTable_spec (grid : Grid)
    (hw : ∀ row ∈ grid, row.length ≤ (grid.headD []).length) :
    ∃ t, emitTable grid = some t ∧
      t.length = grid.length ∧
      (∀ i, i < grid.length →
        (t.getD i []).length = (grid.headD []).length) ∧
      (∀ i j, i < grid.length →
        (t.getD i []).getD j [] =
          if j < (grid.getD i []).length ∧
              cellTruthy ((grid.getD i []).getD j none) = true
          then pyStrip (((grid.getD i []).getD j none).getD [])
          else []) := by
  unfold emitTable
  have hlen0 : (mkEmptyTable grid.length (grid.headD []).length).length =
      grid.length := by
    unfold mkEmptyTable
    exact List.length_replicate _ _
  have hrow0 : ∀ r, r < grid.length →
      ((mkEmptyTable grid.length (grid.headD []).length).getD r []).length =
        (grid.headD []).length := by
    intro r hr
    rw [getD_mkEmptyTable _ _ r hr, List.length_replicate]
  obtain ⟨t, he, hlen, hrlen, -, hcells⟩ :=
    fillTableAux_spec grid 0 (mkEmptyTable grid.length (grid.headD []).length)
      (by rw [hlen0]; omega)
      (by
        intro r hr
        rw [Nat.zero_add, hrow0 r hr]
        exact hw _ (getD_mem grid r [] hr))
  refine ⟨t, he, by rw [hlen, hlen0], ?_, ?_⟩
  · intro i hi
    rw [hrlen i]
    exact hrow0 i hi
  · intro i j hi
    have hc := hcells i j (by omega) (by omega)
    simp only [Nat.sub_zero] at hc
    rw [hc]
    by_cases hcond : j < (grid.getD i []).length ∧
        cellTruthy ((grid.getD i []).getD j none) = true
    · rw [if_pos hcond, if_pos hcond]
    · rw [if_neg hcond, if_neg hcond, getD_mkEmptyTable _ _ i hi,
        getD_replicate_nil]

/-- C4: for a non-empty grid whose rows never exceed the width of the
first row, the emitted table has exactly one row per grid row and one
column per first-row cell; every truthy source cell appears trimmed but
otherwise unchanged at its position, and all other cells (including the
trailing cells of shorter rows) are blank. -/
theorem tableEmitter_roundtrip (grid : Grid) (_hne : grid ≠ [])
    (hw : ∀ row ∈ grid, row.length ≤ (grid.headD []).length) :
    ∃ t, emitTable grid = some t ∧
      t.length = grid.length ∧
      (∀ i, i < grid.length →
        (t.getD i []).length = (grid.headD []).length) ∧
      (∀ i j, i < grid.length →
        (t.getD i []).getD j [] =
          if j < (grid.getD i []).length ∧
              cellTruthy ((grid.getD i []).getD j none) = true
          then pyStrip (((grid.getD i []).getD j none).getD [])
          else []) :=
  emitTable_spec grid hw

/-- C4 (witness): the round trip instantiated at the 3-by-2 Name/Age
grid of Scenario 4. -/
theorem tableEmitter_roundtrip_w :
    (demoGrid ≠ [] ∧
      ∀ row ∈ demoGrid, row.length ≤ (demoGrid.headD []).length) ∧
    (∃ t, emitTable demoGrid = some t ∧
      t.length = demoGrid.length ∧
      (∀ i, i < demoGrid.length →
        (t.getD i []).length = (demoGrid.headD []).length) ∧
      (∀ i j, i < demoGrid.length →
        (t.getD i []).getD j [] =
          if j < (demoGrid.getD i []).length ∧
              cellTruthy ((demoGrid.getD i []).getD j none) = true
          then pyStrip (((demoGrid.getD i []).getD j none).getD [])
          else [])) :=
  ⟨⟨by decide, by decide⟩,
   tableEmitter_roundtrip demoGrid (by decide) (by decide)⟩

/-- C10: the table emitter performs no bounds check of its own; under the
precondition that no row is wider than the first row every cell write is
in bounds and emission succeeds, and without that precondition the
guarantee fails: on a grid whose second row is wider than its first the
emission raises (modelled as `none`). -/
theorem tableEmitter_bounds :
    (∀ grid : Grid, grid ≠ [] →
      (∀ row ∈ grid, row.length ≤ (grid.headD []).length) →
      ∃ t, emitTable grid = some t) ∧
    emitTable badGrid = none := by
  constructor
  · intro grid _ hw
    obtain ⟨t, he, -, -, -⟩ := emitTable_spec grid hw
    exact ⟨t, he⟩
  · decide

/-- C10 (witness): the in-bounds guarantee instantiated at the Name/Age
grid. -/
theorem tableEmitter_bounds_w :
    (demoGrid ≠ [] ∧
      ∀ row ∈ demoGrid, row.length ≤ (demoGrid.headD []).length) ∧
    ∃ t, emitTable demoGrid = some t :=
  ⟨⟨by decide, by decide⟩, tableEmitter_bounds.1 demoGrid (by decide) (by decide)⟩

/-- The node list emitted for a page's tables is a concatenation of
table-plus-spacer pairs. -/
theorem pageTables_shape : ∀ (ts : List Grid) (ns : List Node),
    pageTables ts = some ns →
    ∃ ws : List (List (List (List Char))),
      ns = ws.flatMap
        (fun w => [Node.table w, Node.para [] (ParaKind.plain none)]) := by
  intro ts
  induction ts with
  | nil =>
    intro ns h
    simp only [pageTables] at h
    cases h
    exact ⟨[], rfl⟩
  | cons g r ih =>
    intro ns h
    simp only [pageTables] at h
    cases htg : tableNodes g with
    | none =>
      rw [htg] at h
      simp at h
    | some tn =>
      rw [htg] at h
      cases hpr : pageTables r with
      | none =>
        rw [hpr] at h
        simp at h
      | some ms =>
        rw [hpr] at h
        simp only [Option.some.injEq] at h
        obtain ⟨ws, hws⟩ := ih ms hpr
        unfold tableNodes at htg
        by_cases hg : g = []
        · rw [if_pos hg] at htg
          simp only [Option.some.injEq] at htg
          refine ⟨ws, ?_⟩
          rw [← h, ← htg, hws]
          simp
        · rw [if_neg hg] at htg
          cases hem : emitTable g with
          | none =>
            rw [hem] at htg
            simp at htg
          | some w =>
            rw [hem] at htg
            simp only [Option.some.injEq] at htg
            refine ⟨w :: ws, ?_⟩
            rw [← h, ← htg, hws]
            simp

/-- One successfully converted page yields its table nodes followed by
its text-block nodes. -/
theorem pageNodes_shape (p : Page) (l : List Node)
    (h : pageNodes p = some l) :
    ∃ ts, pageTables p.tables = some ts ∧ l = ts ++ pageBody p ∧
      ∃ ws : List (List (List (List Char))), ts = ws.flatMap
        (fun w => [Node.table w, Node.para [] (ParaKind.plain none)]) := by
  unfold pageNodes at h
  cases hpt : pageTables p.tables with
  | none =>
    rw [hpt] at h
    simp at h
  | some ts =>
    rw [hpt] at h
    simp only [Option.some.injEq] at h
    exact ⟨ts, rfl, h.symm, pageTables_shape p.tables ts hpt⟩

/-- The page loop from page number two onwards: every remaining page is
preceded by a page break. -/
theorem convertAux_from_two :
    ∀ (pages : List Page) (n : Nat) (acc ns : List Node), 2 ≤ n →
    convertAux n pages acc = some ns →
    ∃ ls : List (List Node),
      List.Forall₂ (fun p l => ∃ ts, pageTables p.tables = some ts ∧
        l = ts ++ pageBody p ∧
        ∃ ws : List (List (List (List Char))), ts = ws.flatMap
          (fun w => [Node.table w, Node.para [] (ParaKind.plain none)]))
        pages ls ∧
      ns = acc ++ ls.flatMap (fun l => Node.pageBreak :: l) := by
  intro pages
  induction pages with
  | nil =>
    intro n acc ns _ h
    simp only [convertAux] at h
    cases h
    exact ⟨[], List.Forall₂.nil, by simp⟩
  | cons p rest ih =>
    intro n acc ns hn h
    simp only [convertAux] at h
    rw [if_pos (by omega : n > 1)] at h
    cases hpn : pageNodes p with
    | none =>
      rw [hpn] at h
      simp at h
    | some l0 =>
      rw [hpn] at h
      obtain ⟨ls, hall, hns⟩ := ih (n + 1) _ ns (by omega) h
      refine ⟨l0 :: ls, List.Forall₂.cons (pageNodes_shape p l0 hpn) hall, ?_⟩
      rw [hns]
      simp

/-- C8: in every successful run, the emitted node sequence decomposes
into per-page segments with a page-break node before every page except
the first; each page segment consists of that page's table nodes (each
table followed by its spacer paragraph) followed by that page's
classified text-block nodes. -/
theorem ultra_emission_order (pages : List Page) (ns : List Node)
    (h : ultraPreserve pages = some ns) :
    ∃ ls : List (List Node),
      List.Forall₂ (fun p l => ∃ ts, pageTables p.tables = some ts ∧
        l = ts ++ pageBody p ∧
        ∃ ws : List (List (List (List Char))), ts = ws.flatMap
          (fun w => [Node.table w, Node.para [] (ParaKind.plain none)]))
        pages ls ∧
      ns = joinPages ls := by
  cases pages with
  | nil =>
    unfold ultraPreserve convertAux at h
    cases h
    exact ⟨[], List.Forall₂.nil, rfl⟩
  | cons p rest =>
    unfold ultraPreserve at h
    simp only [convertAux] at h
    rw [if_neg (by omega : ¬ (1 : Nat) > 1)] at h
    cases hpn : pageNodes p with
    | none =>
      rw [hpn] at h
      simp at h
    | some l0 =>
      rw [hpn] at h
      obtain ⟨ls, hall, hns⟩ := convertAux_from_two rest 2 _ ns (by omega) h
      refine ⟨l0 :: ls, List.Forall₂.cons (pageNodes_shape p l0 hpn) hall, ?_⟩
      rw [hns]
      unfold joinPages
      simp

/-- C8 (witness): the emission-order decomposition instantiated at a
two-page document whose first page holds one 1-by-1 table and whose
second page falls back to plain-text parsing of "HI". -/
theorem ultra_emission_order_w :
    ultraPreserve demoPages = some
      [Node.table [[['a']]], Node.para [] (ParaKind.plain none),
        Node.pageBreak, Node.heading 2 ['H', 'I'] false] ∧
    ∃ ls : List (List Node),
      List.Forall₂ (fun p l => ∃ ts, pageTables p.tables = some ts ∧
        l = ts ++ pageBody p ∧
        ∃ ws : List (List (List (List Char))), ts = ws.flatMap
          (fun w => [Node.table w, Node.para [] (ParaKind.plain none)]))
        demoPages ls ∧
      [Node.table [[['a']]], Node.para [] (ParaKind.plain none),
        Node.pageBreak, Node.heading 2 ['H', 'I'] false] = joinPages ls :=
  ⟨by decide, ultra_emission_order demoPages _ (by decide)⟩
